import Mathlib

/-!
Shallow embedding of the `ez-random` library (`src/index.ts`) and proofs of
its specification claims.

Modelling conventions:
* JavaScript numbers holding integer values are modelled as `ℤ`;
  `Math.random()` draws and other real-valued quantities are idealized
  reals `ℝ`; `Math.floor` is `Int.floor`.
* A thrown exception is an `Except Err` error value; `Err` distinguishes
  the two error kinds (`TypeError` / `RangeError`) used by the source.
* Arguments typed `ℤ` / `ℝ` make the dynamic `Number.isInteger` /
  `typeof === number` checks of the source hold by construction; the
  corresponding `TypeError` branches are consequently not represented.
  `Number.isFinite` always holds for `ℝ` values, so those branches are
  likewise not represented.
* The stream of values produced by the underlying random source is passed
  explicitly (a single draw `u : ℝ`, a list of draws, or a function from
  the loop counter to a draw).
-/

open List

/-- The two error kinds thrown by the library. -/
inductive Err where
  | typeError : Err
  | rangeError : Err
deriving DecidableEq

/-- `Number.MAX_SAFE_INTEGER` (2^53 - 1). -/
def maxSafeInteger : ℤ := 2 ^ 53 - 1

namespace Random

/-- Embedding of `Random.randint(min, max)` from `src/index.ts`:
validates `min ≤ max` and `range ≤ Number.MAX_SAFE_INTEGER`, then returns
`Math.floor(u * range) + min` for the single draw `u = Math.random()`. -/
noncomputable def randint (min max : ℤ) (u : ℝ) : Except Err ℤ :=
  if min > max then .error .rangeError
  else
    let range : ℤ := max - min + 1
    if range > maxSafeInteger then .error .rangeError
    else .ok (⌊u * ((range : ℤ) : ℝ)⌋ + min)

/-- Embedding of `Random.uniform(min, max)` from `src/index.ts`:
validates `min ≤ max` (finiteness checks hold trivially over `ℝ`), then
returns `u * (max - min) + min` for the single draw `u`. -/
noncomputable def uniform (min max : ℝ) (u : ℝ) : Except Err ℝ :=
  if min > max then .error .rangeError
  else .ok (u * (max - min) + min)

end Random

/-- C2: for integers `min ≤ max` with range within the safe-integer bound,
`randint` succeeds for every draw `u ∈ [0,1)` with a result in `[min, max]`,
and both endpoints `min` and `max` are attained for suitable draws. -/
theorem randint_range_and_endpoints (min max : ℤ)
    (hle : min ≤ max) (hrange : max - min + 1 ≤ maxSafeInteger) :
    (∀ u : ℝ, 0 ≤ u → u < 1 →
      ∃ r : ℤ, Random.randint min max u = .ok r ∧ min ≤ r ∧ r ≤ max) ∧
    (∃ u : ℝ, 0 ≤ u ∧ u < 1 ∧ Random.randint min max u = .ok min) ∧
    (∃ u : ℝ, 0 ≤ u ∧ u < 1 ∧ Random.randint min max u = .ok max) := by
  have hnotlt : ¬ min > max := not_lt.2 hle
  have hnotrange : ¬ (max - min + 1 > maxSafeInteger) := not_lt.2 hrange
  have hunfold : ∀ u : ℝ, Random.randint min max u =
      .ok (⌊u * (((max - min + 1 : ℤ)) : ℝ)⌋ + min) := by
    intro u
    simp only [Random.randint, if_neg hnotlt, if_neg hnotrange]
  have hler : ((min : ℝ)) ≤ ((max : ℝ)) := by exact_mod_cast hle
  have hrangepos : (0 : ℝ) < ((max - min + 1 : ℤ) : ℝ) := by
    push_cast
    linarith
  refine ⟨?_, ?_, ?_⟩
  · intro u hu0 hu1
    refine ⟨⌊u * (((max - min + 1 : ℤ)) : ℝ)⌋ + min, hunfold u, ?_, ?_⟩
    · have h0 : (0 : ℤ) ≤ ⌊u * (((max - min + 1 : ℤ)) : ℝ)⌋ :=
        Int.floor_nonneg.2 (mul_nonneg hu0 (le_of_lt hrangepos))
      linarith
    · have h1 : ⌊u * (((max - min + 1 : ℤ)) : ℝ)⌋ < max - min + 1 := by
        rw [Int.floor_lt]
        calc u * (((max - min + 1 : ℤ)) : ℝ)
            < 1 * (((max - min + 1 : ℤ)) : ℝ) := by
              exact mul_lt_mul_of_pos_right hu1 hrangepos
          _ = (((max - min + 1 : ℤ)) : ℝ) := one_mul _
      linarith
  · refine ⟨0, le_refl 0, zero_lt_one, ?_⟩
    rw [hunfold 0]
    norm_num
  · refine ⟨((max - min : ℤ) : ℝ) / ((max - min + 1 : ℤ) : ℝ), ?_, ?_, ?_⟩
    · apply div_nonneg _ (le_of_lt hrangepos)
      push_cast
      linarith
    · rw [div_lt_one hrangepos]
      push_cast
      linarith
    · rw [hunfold]
      rw [div_mul_cancel₀ _ (ne_of_gt hrangepos)]
      rw [Int.floor_intCast]
      congr 1
      omega

/-- Witness for C2 at `min = 1`, `max = 6`. -/
theorem randint_range_and_endpoints_witness :
    ((1 : ℤ) ≤ 6) ∧ ((6 : ℤ) - 1 + 1 ≤ maxSafeInteger) ∧
    ((∀ u : ℝ, 0 ≤ u → u < 1 →
      ∃ r : ℤ, Random.randint 1 6 u = .ok r ∧ 1 ≤ r ∧ r ≤ 6) ∧
    (∃ u : ℝ, 0 ≤ u ∧ u < 1 ∧ Random.randint 1 6 u = .ok 1) ∧
    (∃ u : ℝ, 0 ≤ u ∧ u < 1 ∧ Random.randint 1 6 u = .ok 6)) :=
  ⟨by norm_num, by norm_num [maxSafeInteger],
    randint_range_and_endpoints 1 6 (by norm_num) (by norm_num [maxSafeInteger])⟩

/-- C8 counterexample: at `min = max = 0` the validation passes (only
`min > max` is rejected), and `uniform 0 0` returns `0`, which is not in
the half-open interval `[0, 0)` (that interval is empty). -/
theorem uniform_Ico_counterexample :
    ((0 : ℝ) ≤ 0) ∧ Random.uniform 0 0 0 = .ok 0 ∧
    ¬ ((0 : ℝ) ∈ Set.Ico (0 : ℝ) 0) := by
  refine ⟨le_refl 0, ?_, ?_⟩
  · simp [Random.uniform]
  · simp

/-- C8 amended: for finite reals `min ≤ max` and a draw `u ∈ [0,1)`,
`uniform min max u` succeeds with a result `r` satisfying
`min ≤ r ≤ max`, and `r < max` whenever `min < max` (so the result lies in
`[min, max)` except in the degenerate case `min = max`, where it is `min`). -/
theorem uniform_in_closed_range (min max u : ℝ)
    (hle : min ≤ max) (hu0 : 0 ≤ u) (hu1 : u < 1) :
    ∃ r : ℝ, Random.uniform min max u = .ok r ∧
      min ≤ r ∧ r ≤ max ∧ (min < max → r < max) := by
  refine ⟨u * (max - min) + min, ?_, ?_, ?_, ?_⟩
  · simp [Random.uniform, not_lt.2 hle]
  · nlinarith
  · nlinarith
  · intro hlt
    nlinarith

/-- Witness for C8's amended theorem at `min = 1`, `max = 3`, `u = 1/2`. -/
theorem uniform_in_closed_range_witness :
    ((1 : ℝ) ≤ 3) ∧ ((0 : ℝ) ≤ 1/2) ∧ ((1/2 : ℝ) < 1) ∧
    (∃ r : ℝ, Random.uniform 1 3 (1/2) = .ok r ∧
      1 ≤ r ∧ r ≤ 3 ∧ ((1 : ℝ) < 3 → r < 3)) :=
  ⟨by norm_num, by norm_num, by norm_num,
    uniform_in_closed_range 1 3 (1/2) (by norm_num) (by norm_num) (by norm_num)⟩

namespace Random

/-- The step count computed inside `Random.randrange`:
`Math.floor((width + step - (step > 0 ? 1 : -1)) / step)`, with the
floating-point division modelled as exact division in `ℚ`. -/
def randrangeCount (start stop step : ℤ) : ℤ :=
  ⌊((stop - start + step - (if step > 0 then 1 else -1) : ℤ) : ℚ) / ((step : ℤ) : ℚ)⌋

/-- Embedding of `Random.randrange(start, stop?, step)` from `src/index.ts`.
`stop? = none` is the single-argument call `randrange(stop)`, which shifts
the sole argument into `stop` and uses `start = 0`; `u` is the
`Math.random()` draw used for the index. -/
noncomputable def randrange (start : ℤ) (stop? : Option ℤ) (step : ℤ) (u : ℝ) :
    Except Err ℤ :=
  let startv : ℤ := match stop? with | none => 0 | some _ => start
  let stopv : ℤ := match stop? with | none => start | some s => s
  if step = 0 then .error .rangeError
  else
    let width := stopv - startv
    if step > 0 ∧ width ≤ 0 then .error .rangeError
    else if step < 0 ∧ width ≥ 0 then .error .rangeError
    else
      let n := randrangeCount startv stopv step
      if n ≤ 0 then .error .rangeError
      else .ok (startv + ⌊u * ((n : ℤ) : ℝ)⌋ * step)

end Random

/-- For positive `W` and `S`, the floor formula `⌊(W + S - 1) / S⌋` computes
the ceiling `⌈W / S⌉`. -/
lemma floor_add_sub_one_div_eq_ceil (W S : ℤ) (hS : 0 < S) :
    ⌊((W + S - 1 : ℤ) : ℚ) / ((S : ℤ) : ℚ)⌋ = ⌈((W : ℤ) : ℚ) / ((S : ℤ) : ℚ)⌉ := by
  have hSQ : (0 : ℚ) < ((S : ℤ) : ℚ) := by exact_mod_cast hS
  set m : ℤ := ⌊((W + S - 1 : ℤ) : ℚ) / ((S : ℤ) : ℚ)⌋ with hm
  have hfl : ((m : ℤ) : ℚ) ≤ ((W + S - 1 : ℤ) : ℚ) / ((S : ℤ) : ℚ) := Int.floor_le _
  have hfu : ((W + S - 1 : ℤ) : ℚ) / ((S : ℤ) : ℚ) < ((m : ℤ) : ℚ) + 1 :=
    Int.lt_floor_add_one _
  have hl : m * S ≤ W + S - 1 := by
    have := (le_div_iff₀ hSQ).1 hfl
    exact_mod_cast this
  have hu : W + S - 1 < (m + 1) * S := by
    have := (div_lt_iff₀ hSQ).1 hfu
    have h2 : ((W + S - 1 : ℤ) : ℚ) < ((m + 1 : ℤ) : ℚ) * ((S : ℤ) : ℚ) := by
      push_cast
      push_cast at this
      linarith
    exact_mod_cast h2
  symm
  rw [Int.ceil_eq_iff]
  constructor
  · rw [show ((m : ℤ) : ℚ) - 1 = (((m - 1 : ℤ)) : ℚ) by push_cast; ring]
    rw [lt_div_iff₀ hSQ]
    have hz : (m - 1) * S < W := by
      have hms : (m - 1) * S = m * S - S := by ring
      linarith
    exact_mod_cast hz
  · rw [div_le_iff₀ hSQ]
    have hz : W ≤ m * S := by
      have h2 : (m + 1) * S = m * S + S := by ring
      have h1 : W - 1 < m * S := by linarith
      have h3 : W - 1 + 1 ≤ m * S := Int.lt_iff_add_one_le.mp h1
      linarith
    exact_mod_cast hz

/-- Under the preconditions enforced by `randrange`'s earlier validation
(`step ≠ 0`, nonempty progression), the computed step count equals
`⌈|stop - start| / |step|⌉`. -/
lemma randrangeCount_eq_ceil (start stop step : ℤ) (hstep : step ≠ 0)
    (hpos : step > 0 → 0 < stop - start) (hneg : step < 0 → stop - start < 0) :
    Random.randrangeCount start stop step =
      ⌈((|stop - start| : ℤ) : ℚ) / ((|step| : ℤ) : ℚ)⌉ := by
  rcases lt_or_gt_of_ne hstep with hn | hp
  · have hw : stop - start < 0 := hneg hn
    have hsQ : ((step : ℤ) : ℚ) ≠ 0 := by exact_mod_cast hstep
    have hnsQ : (((-step : ℤ)) : ℚ) ≠ 0 := by
      exact_mod_cast neg_ne_zero.2 hstep
    unfold Random.randrangeCount
    rw [if_neg (not_lt.2 hn.le)]
    have hfrac : ((stop - start + step - (-1) : ℤ) : ℚ) / ((step : ℤ) : ℚ)
        = (((-(stop - start) + -step - 1 : ℤ)) : ℚ) / (((-step : ℤ)) : ℚ) := by
      rw [div_eq_div_iff hsQ hnsQ]
      push_cast
      ring
    rw [hfrac]
    rw [show ((-(stop - start) + -step - 1 : ℤ)) = (-(stop - start)) + (-step) - 1 by ring]
    rw [floor_add_sub_one_div_eq_ceil (-(stop - start)) (-step) (by omega)]
    rw [abs_of_neg hw, abs_of_neg hn]
  · have hw : 0 < stop - start := hpos hp
    unfold Random.randrangeCount
    rw [if_pos hp]
    rw [show ((stop - start + step - 1 : ℤ)) = (stop - start) + step - 1 by ring]
    rw [floor_add_sub_one_div_eq_ceil (stop - start) step hp]
    rw [abs_of_pos hw, abs_of_pos hp]

/-- Under the preconditions enforced by `randrange`'s earlier validation,
the computed step count is at least 1. -/
lemma one_le_randrangeCount (start stop step : ℤ) (hstep : step ≠ 0)
    (hpos : step > 0 → 0 < stop - start) (hneg : step < 0 → stop - start < 0) :
    1 ≤ Random.randrangeCount start stop step := by
  rw [randrangeCount_eq_ceil start stop step hstep hpos hneg]
  have hwne : stop - start ≠ 0 := by
    rcases lt_or_gt_of_ne hstep with hn | hp
    · exact ne_of_lt (hneg hn)
    · exact ne_of_gt (hpos hp)
  have h1 : (0 : ℚ) < ((|stop - start| : ℤ) : ℚ) / ((|step| : ℤ) : ℚ) := by
    apply div_pos
    · exact_mod_cast abs_pos.2 hwne
    · exact_mod_cast abs_pos.2 hstep
  exact Int.ceil_pos.2 h1

/-- A floor-scaled draw `⌊u * z⌋` with `u ∈ [0,1)` and `0 < z` is an index
in `[0, z)`. -/
lemma floor_mul_cast_bounds (u : ℝ) (z : ℤ) (hu0 : 0 ≤ u) (hu1 : u < 1)
    (hz : 0 < z) : 0 ≤ ⌊u * ((z : ℤ) : ℝ)⌋ ∧ ⌊u * ((z : ℤ) : ℝ)⌋ < z := by
  have hzR : (0 : ℝ) < ((z : ℤ) : ℝ) := by exact_mod_cast hz
  constructor
  · exact Int.floor_nonneg.2 (mul_nonneg hu0 hzR.le)
  · rw [Int.floor_lt]
    calc u * ((z : ℤ) : ℝ) < 1 * ((z : ℤ) : ℝ) := mul_lt_mul_of_pos_right hu1 hzR
      _ = ((z : ℤ) : ℝ) := one_mul _

/-- Under `randrange`'s validation preconditions, `(n - 1) * step` lies
strictly on the `start` side of `width = stop - start`. -/
lemma randrangeCount_pred_mul_bound (start stop step : ℤ) (hstep : step ≠ 0)
    (hpos : step > 0 → 0 < stop - start) (hneg : step < 0 → stop - start < 0) :
    (step > 0 → (Random.randrangeCount start stop step - 1) * step < stop - start) ∧
    (step < 0 → stop - start < (Random.randrangeCount start stop step - 1) * step) := by
  have hceil := randrangeCount_eq_ceil start stop step hstep hpos hneg
  constructor
  · intro hp
    have hw := hpos hp
    rw [hceil, abs_of_pos hw, abs_of_pos hp]
    have hsQ : (0 : ℚ) < ((step : ℤ) : ℚ) := by exact_mod_cast hp
    have h1 := Int.ceil_lt_add_one (((stop - start : ℤ) : ℚ) / ((step : ℤ) : ℚ))
    set c : ℤ := ⌈((stop - start : ℤ) : ℚ) / ((step : ℤ) : ℚ)⌉ with hc
    have h2 : (((c - 1 : ℤ)) : ℚ) < ((stop - start : ℤ) : ℚ) / ((step : ℤ) : ℚ) := by
      push_cast
      push_cast at h1
      linarith
    have h3 : (((c - 1 : ℤ)) : ℚ) * ((step : ℤ) : ℚ) < ((stop - start : ℤ) : ℚ) :=
      (lt_div_iff₀ hsQ).1 h2
    exact_mod_cast h3
  · intro hn
    have hw := hneg hn
    rw [hceil, abs_of_neg hw, abs_of_neg hn]
    have hsQ : (0 : ℚ) < (((-step : ℤ)) : ℚ) := by
      have : (0 : ℤ) < -step := by omega
      exact_mod_cast this
    have h1 := Int.ceil_lt_add_one ((((-(stop - start) : ℤ)) : ℚ) / (((-step : ℤ)) : ℚ))
    set c : ℤ := ⌈(((-(stop - start) : ℤ)) : ℚ) / (((-step : ℤ)) : ℚ)⌉ with hc
    have h2 : (((c - 1 : ℤ)) : ℚ) < (((-(stop - start) : ℤ)) : ℚ) / (((-step : ℤ)) : ℚ) := by
      push_cast
      push_cast at h1
      linarith
    have h3 : (((c - 1 : ℤ)) : ℚ) * (((-step : ℤ)) : ℚ) < (((-(stop - start) : ℤ)) : ℚ) :=
      (lt_div_iff₀ hsQ).1 h2
    have h4 : (c - 1) * (-step) < -(stop - start) := by exact_mod_cast h3
    have h5 : (c - 1) * (-step) = -((c - 1) * step) := by ring
    linarith

/-- C6: under `randrange`'s validation preconditions, the computed count
equals `⌈|stop - start| / |step|⌉`; for any draw `u ∈ [0,1)` the result is a
member of the integer progression (`start ≤ r < stop` for positive step,
`stop < r ≤ start` for negative step, `r - start` a multiple of `step`);
and the one-argument form behaves as `start = 0`, `step = 1`. -/
theorem randrange_count_and_membership (start stop step : ℤ) (u : ℝ)
    (hstep : step ≠ 0)
    (hpos : step > 0 → 0 < stop - start) (hneg : step < 0 → stop - start < 0)
    (hu0 : 0 ≤ u) (hu1 : u < 1) :
    Random.randrangeCount start stop step =
      ⌈((|stop - start| : ℤ) : ℚ) / ((|step| : ℤ) : ℚ)⌉ ∧
    (∃ r : ℤ, Random.randrange start (some stop) step u = .ok r ∧
      step ∣ (r - start) ∧
      (step > 0 → start ≤ r ∧ r < stop) ∧
      (step < 0 → stop < r ∧ r ≤ start)) ∧
    (∀ s0 : ℤ, ∀ v : ℝ, Random.randrange s0 none 1 v = Random.randrange 0 (some s0) 1 v) := by
  have hceil := randrangeCount_eq_ceil start stop step hstep hpos hneg
  have hn1 := one_le_randrangeCount start stop step hstep hpos hneg
  have hbound := randrangeCount_pred_mul_bound start stop step hstep hpos hneg
  set n : ℤ := Random.randrangeCount start stop step with hn
  have hg1 : ¬ (step > 0 ∧ stop - start ≤ 0) := by
    rintro ⟨h1, h2⟩
    exact absurd (hpos h1) (not_lt.2 h2)
  have hg2 : ¬ (step < 0 ∧ stop - start ≥ 0) := by
    rintro ⟨h1, h2⟩
    exact absurd (hneg h1) (not_lt.2 h2)
  have hg3 : ¬ (n ≤ 0) := by omega
  have hunfold : Random.randrange start (some stop) step u =
      .ok (start + ⌊u * ((n : ℤ) : ℝ)⌋ * step) := by
    simp only [Random.randrange, if_neg hstep, if_neg hg1, if_neg hg2, ← hn, if_neg hg3]
  have hidx := floor_mul_cast_bounds u n hu0 hu1 (by omega)
  set idx : ℤ := ⌊u * ((n : ℤ) : ℝ)⌋ with hidxdef
  refine ⟨hceil, ⟨start + idx * step, hunfold, ⟨idx, by ring⟩, ?_, ?_⟩, fun s0 v => rfl⟩
  · intro hp
    constructor
    · nlinarith [hidx.1, hidx.2]
    · have h1 : idx * step ≤ (n - 1) * step :=
        mul_le_mul_of_nonneg_right (by omega) (le_of_lt hp)
      have h2 := hbound.1 hp
      linarith
  · intro hng
    constructor
    · have h1 : (n - 1) * step ≤ idx * step :=
        mul_le_mul_of_nonpos_right (by omega) (le_of_lt hng)
      have h2 := hbound.2 hng
      linarith
    · nlinarith [hidx.1, hidx.2]

/-- Witness for C6 at `start = 0`, `stop = 7`, `step = 2`, `u = 1/2`. -/
theorem randrange_count_and_membership_witness :
    ((2 : ℤ) ≠ 0) ∧ ((0 : ℝ) ≤ 1/2) ∧ ((1/2 : ℝ) < 1) ∧
    (Random.randrangeCount 0 7 2 = ⌈((|(7 : ℤ) - 0| : ℤ) : ℚ) / ((|(2 : ℤ)| : ℤ) : ℚ)⌉ ∧
    (∃ r : ℤ, Random.randrange 0 (some 7) 2 (1/2) = .ok r ∧
      (2 : ℤ) ∣ (r - 0) ∧
      ((2 : ℤ) > 0 → 0 ≤ r ∧ r < 7) ∧
      ((2 : ℤ) < 0 → 7 < r ∧ r ≤ 0)) ∧
    (∀ s0 : ℤ, ∀ v : ℝ, Random.randrange s0 none 1 v = Random.randrange 0 (some s0) 1 v)) :=
  ⟨by norm_num, by norm_num, by norm_num,
    randrange_count_and_membership 0 7 2 (1/2) (by norm_num)
      (by norm_num) (by norm_num) (by norm_num) (by norm_num)⟩

/-- C10: whenever the validation preceding the count computation passes
(`step ≠ 0`, sign-compatible nonempty width), the computed count `n` is at
least 1, so the final `n ≤ 0` RangeError branch is unreachable: `randrange`
returns a value for every draw `u ∈ [0,1)`. -/
theorem randrange_empty_range_branch_unreachable (start stop step : ℤ) (u : ℝ)
    (hstep : step ≠ 0)
    (hpos : step > 0 → 0 < stop - start) (hneg : step < 0 → stop - start < 0)
    (hu0 : 0 ≤ u) (hu1 : u < 1) :
    1 ≤ Random.randrangeCount start stop step ∧
    ∃ r : ℤ, Random.randrange start (some stop) step u = .ok r := by
  have hn1 := one_le_randrangeCount start stop step hstep hpos hneg
  obtain ⟨-, ⟨r, hr, -⟩, -⟩ :=
    randrange_count_and_membership start stop step u hstep hpos hneg hu0 hu1
  exact ⟨hn1, r, hr⟩

/-- Witness for C10 at `start = 5`, `stop = 0`, `step = -2`, `u = 0`. -/
theorem randrange_empty_range_branch_unreachable_witness :
    ((-2 : ℤ) ≠ 0) ∧ ((0 : ℝ) ≤ 0) ∧ ((0 : ℝ) < 1) ∧
    (1 ≤ Random.randrangeCount 5 0 (-2) ∧
     ∃ r : ℤ, Random.randrange 5 (some 0) (-2) 0 = .ok r) :=
  ⟨by norm_num, le_refl 0, by norm_num,
    randrange_empty_range_branch_unreachable 5 0 (-2) 0 (by norm_num)
      (by norm_num) (by norm_num) (le_refl 0) (by norm_num)⟩

namespace SecureRandom

/-- `0xFFFFFFFF`, the largest value `range` may take per the source's check. -/
def maxUint32 : ℤ := 0xFFFFFFFF

/-- `maxValid = Math.floor(0x100000000 / range) * range`, the largest
multiple of `range` not exceeding 2^32, as computed in `SecureRandom.randint`. -/
def maxValidFor (range : ℤ) : ℤ := (0x100000000 / range) * range

/-- Embedding of `SecureRandom.randint(min, max)` from `src/index.ts`.
`draws` is the stream of `getRandomUint32()` results consumed by the
do-while rejection loop; the loop accepts the first draw `< maxValid`.
`.ok none` models exhausting the supplied stream without an accepted draw
(the loop would keep drawing). -/
def randint (min max : ℤ) (draws : List ℤ) : Except Err (Option ℤ) :=
  if min > max then .error .rangeError
  else
    let range := max - min + 1
    if range > maxUint32 then .error .rangeError
    else
      let maxValid := maxValidFor range
      match draws.find? (fun v => decide (v < maxValid)) with
      | some v => .ok (some (min + v % range))
      | none => .ok none

end SecureRandom

/-- Each residue class `r < k` has exactly `m` members below `m * k`. -/
lemma card_range_mul_filter_mod (m k r : ℕ) (hk : 0 < k) (hr : r < k) :
    ((Finset.range (m * k)).filter (fun v => v % k = r)).card = m := by
  have h : ((Finset.range (m * k)).filter (fun v => v % k = r)).card
      = (Finset.range m).card := by
    apply Finset.card_nbij' (fun v => v / k) (fun i => i * k + r)
    · intro v hv
      simp only [Finset.mem_filter, Finset.mem_range] at hv
      simp only [Finset.mem_range]
      exact Nat.div_lt_iff_lt_mul hk |>.2 hv.1
    · intro i hi
      simp only [Finset.mem_range] at hi
      simp only [Finset.mem_filter, Finset.mem_range]
      refine ⟨?_, ?_⟩
      · calc i * k + r < i * k + k := by omega
          _ = (i + 1) * k := by ring
          _ ≤ m * k := Nat.mul_le_mul_right k hi
      · rw [show i * k + r = k * i + r by ring, Nat.mul_add_mod]
        exact Nat.mod_eq_of_lt hr
    · intro v hv
      simp only [Finset.mem_filter, Finset.mem_range] at hv
      have hdm := Nat.div_add_mod v k
      rw [hv.2] at hdm
      conv_lhs => rw [mul_comm]
      exact hdm
    · intro i hi
      rw [show i * k + r = k * i + r by ring, Nat.mul_add_div hk, Nat.div_eq_of_lt hr]
      omega
  rw [h, Finset.card_range]

/-- C1: for validated inputs (`min ≤ max`, `range = max - min + 1` within the
accepted bound), `maxValid = ⌊2^32 / range⌋ * range` is a multiple of `range`
not exceeding `2^32`; every accepted draw `v < maxValid` maps to
`min + (v % range) ∈ [min, max]`; every target in `[min, max]` has exactly
`maxValid / range` accepted preimages (no modulo bias); and `randint`
returns `min + (v % range)` for the first accepted draw `v`. -/
theorem secure_randint_no_modulo_bias (min max : ℤ)
    (hle : min ≤ max) (hrange : max - min + 1 ≤ SecureRandom.maxUint32) :
    ((max - min + 1) ∣ SecureRandom.maxValidFor (max - min + 1)) ∧
    SecureRandom.maxValidFor (max - min + 1) ≤ 2 ^ 32 ∧
    (∀ v : ℤ, 0 ≤ v → v < SecureRandom.maxValidFor (max - min + 1) →
      min ≤ min + v % (max - min + 1) ∧ min + v % (max - min + 1) ≤ max) ∧
    (∀ t : ℤ, min ≤ t → t ≤ max →
      ((Finset.range (SecureRandom.maxValidFor (max - min + 1)).toNat).filter
          (fun (v : ℕ) => min + (v : ℤ) % (max - min + 1) = t)).card
        = (SecureRandom.maxValidFor (max - min + 1) / (max - min + 1)).toNat) ∧
    (∀ draws : List ℤ, ∀ v : ℤ,
      draws.find? (fun w => decide (w < SecureRandom.maxValidFor (max - min + 1))) = some v →
      SecureRandom.randint min max draws = .ok (some (min + v % (max - min + 1)))) := by
  set range : ℤ := max - min + 1 with hrangedef
  have hr0 : 0 < range := by omega
  have hrne : range ≠ 0 := ne_of_gt hr0
  have hq0 : 0 ≤ (0x100000000 : ℤ) / range := Int.ediv_nonneg (by norm_num) hr0.le
  refine ⟨dvd_mul_left range _, ?_, ?_, ?_, ?_⟩
  · calc SecureRandom.maxValidFor range ≤ (0x100000000 : ℤ) :=
          Int.ediv_mul_le (0x100000000 : ℤ) hrne
      _ = 2 ^ 32 := by norm_num
  · intro v hv0 hvlt
    have h1 : 0 ≤ v % range := Int.emod_nonneg v hrne
    have h2 : v % range < range := Int.emod_lt_of_pos v hr0
    omega
  · intro t hmin hmax
    set q : ℤ := (0x100000000 : ℤ) / range with hq
    set k : ℕ := range.toNat with hkdef
    have hk : 0 < k := by omega
    have hmv : (SecureRandom.maxValidFor range).toNat = q.toNat * k := by
      have h1 : ((q.toNat * k : ℕ) : ℤ) = q * range := by
        push_cast
        rw [Int.toNat_of_nonneg hq0, Int.toNat_of_nonneg hr0.le]
      have h2 : SecureRandom.maxValidFor range = ((q.toNat * k : ℕ) : ℤ) := by
        rw [h1]
        rfl
      rw [h2, Int.toNat_natCast]
    have hdivq : SecureRandom.maxValidFor range / range = q :=
      Int.mul_ediv_cancel q hrne
    set r0 : ℕ := (t - min).toNat with hr0def
    have hr0lt : r0 < k := by omega
    have hfeq : (Finset.range (q.toNat * k)).filter
          (fun (v : ℕ) => min + (v : ℤ) % range = t)
        = (Finset.range (q.toNat * k)).filter (fun (v : ℕ) => v % k = r0) := by
      apply Finset.filter_congr
      intro v _
      have h1 : (v : ℤ) % range = ((v % k : ℕ) : ℤ) := by
        rw [show range = ((k : ℕ) : ℤ) from (Int.toNat_of_nonneg hr0.le).symm]
        push_cast
        rfl
      rw [h1]
      constructor
      · intro h
        omega
      · intro h
        omega
    rw [hmv, hdivq, hfeq]
    exact card_range_mul_filter_mod q.toNat k r0 hk hr0lt
  · intro draws v hfind
    simp only [SecureRandom.randint, if_neg (not_lt.2 hle), ← hrangedef,
      if_neg (not_lt.2 hrange), hfind]

/-- Witness for C1 at `min = 1`, `max = 6`. -/
theorem secure_randint_no_modulo_bias_witness :
    ((1 : ℤ) ≤ 6) ∧ ((6 : ℤ) - 1 + 1 ≤ SecureRandom.maxUint32) ∧
    (((6 : ℤ) - 1 + 1) ∣ SecureRandom.maxValidFor (6 - 1 + 1)) ∧
    SecureRandom.maxValidFor (6 - 1 + 1) ≤ 2 ^ 32 ∧
    (∀ v : ℤ, 0 ≤ v → v < SecureRandom.maxValidFor (6 - 1 + 1) →
      1 ≤ 1 + v % (6 - 1 + 1) ∧ 1 + v % (6 - 1 + 1) ≤ 6) ∧
    (∀ t : ℤ, 1 ≤ t → t ≤ 6 →
      ((Finset.range (SecureRandom.maxValidFor (6 - 1 + 1)).toNat).filter
          (fun (v : ℕ) => 1 + (v : ℤ) % (6 - 1 + 1) = t)).card
        = (SecureRandom.maxValidFor (6 - 1 + 1) / (6 - 1 + 1)).toNat) ∧
    (∀ draws : List ℤ, ∀ v : ℤ,
      draws.find? (fun w => decide (w < SecureRandom.maxValidFor (6 - 1 + 1))) = some v →
      SecureRandom.randint 1 6 draws = .ok (some (1 + v % (6 - 1 + 1)))) :=
  ⟨by norm_num, by norm_num [SecureRandom.maxUint32],
    (secure_randint_no_modulo_bias 1 6 (by norm_num)
      (by norm_num [SecureRandom.maxUint32])).1,
    (secure_randint_no_modulo_bias 1 6 (by norm_num)
      (by norm_num [SecureRandom.maxUint32])).2⟩

/-- C9 counterexample: at `min = 0`, `max = 4294967295` the range is exactly
`2^32`, which the claim says passes validation; the code's check
`range > 0xFFFFFFFF` rejects it with a RangeError. -/
theorem secure_randint_pow32_counterexample :
    ((0 : ℤ) ≤ 4294967295) ∧ ((4294967295 : ℤ) - 0 + 1 ≤ 2 ^ 32) ∧
    SecureRandom.randint 0 4294967295 [0] = .error .rangeError := by
  refine ⟨by norm_num, by norm_num, ?_⟩
  rfl

/-- C9 amended: for integers `min ≤ max`, `secure.randint` fails with a
RangeError exactly when `range = max - min + 1` exceeds `2^32 - 1`
(equivalently, when `range ≥ 2^32`); for every range up to and including
`2^32 - 1` the validation succeeds and the algorithm proceeds to draw. -/
theorem secure_randint_range_validation (min max : ℤ) (hle : min ≤ max) :
    ((max - min + 1 > SecureRandom.maxUint32) →
      ∀ draws : List ℤ, SecureRandom.randint min max draws = .error .rangeError) ∧
    ((max - min + 1 ≤ SecureRandom.maxUint32) →
      ∀ draws : List ℤ, ∃ o : Option ℤ, SecureRandom.randint min max draws = .ok o) := by
  constructor
  · intro hgt draws
    simp only [SecureRandom.randint, if_neg (not_lt.2 hle), if_pos hgt]
  · intro hrange draws
    cases hfind : draws.find?
        (fun v => decide (v < SecureRandom.maxValidFor (max - min + 1))) with
    | none =>
      refine ⟨none, ?_⟩
      simp only [SecureRandom.randint, if_neg (not_lt.2 hle),
        if_neg (not_lt.2 hrange), hfind]
    | some v =>
      refine ⟨some (min + v % (max - min + 1)), ?_⟩
      simp only [SecureRandom.randint, if_neg (not_lt.2 hle),
        if_neg (not_lt.2 hrange), hfind]

/-- Witness for C9's amended theorem at `min = 0`, `max = 2`. -/
theorem secure_randint_range_validation_witness :
    ((0 : ℤ) ≤ 2) ∧
    ((((2 : ℤ) - 0 + 1 > SecureRandom.maxUint32) →
      ∀ draws : List ℤ, SecureRandom.randint 0 2 draws = .error .rangeError) ∧
    (((2 : ℤ) - 0 + 1 ≤ SecureRandom.maxUint32) →
      ∀ draws : List ℤ, ∃ o : Option ℤ, SecureRandom.randint 0 2 draws = .ok o)) :=
  ⟨by norm_num, secure_randint_range_validation 0 2 (by norm_num)⟩

namespace Random

/-- One destructuring swap `[arr[i], arr[j]] = [arr[j], arr[i]]` from the
Fisher-Yates loop; with an out-of-range index the list is returned
unchanged (the loop only ever uses in-range indices). -/
def listSwap {α : Type} (l : List α) (i j : ℕ) : List α :=
  match l[i]?, l[j]? with
  | some a, some b => (l.set i b).set j a
  | some _, none => l
  | none, _ => l

/-- The swap index `j = Math.floor(Math.random() * (i + 1))` drawn at
position `i` of the Fisher-Yates loop, `us i` being that call's draw. -/
noncomputable def swapIdx (us : ℕ → ℝ) (i : ℕ) : ℤ :=
  ⌊us i * (((i : ℕ) : ℝ) + 1)⌋

/-- The Fisher-Yates loop of `Random.shuffle` (`for i from n-1 down to 1`),
with the loop counter counting down structurally: the loop body runs at
positions `i+1, i, ..., 1` and stops before position 0. -/
noncomputable def shuffleLoop {α : Type} (us : ℕ → ℝ) : ℕ → List α → List α
  | 0, arr => arr
  | i + 1, arr => shuffleLoop us i (listSwap arr (i + 1) (swapIdx us (i + 1)).toNat)

/-- Embedding of `Random.shuffle(arr)` from `src/index.ts` (in place in the
source; functionally here): Fisher-Yates from index `arr.length - 1` down
to 1. -/
noncomputable def shuffle {α : Type} (arr : List α) (us : ℕ → ℝ) : List α :=
  shuffleLoop us (arr.length - 1) arr

end Random

/-- Replacing the element at position `m` while consing it in front yields a
permutation of consing the replacement. -/
lemma cons_set_perm {α : Type} :
    ∀ (t : List α) (m : ℕ) (hm : m < t.length) (a : α),
      List.Perm (t.get ⟨m, hm⟩ :: t.set m a) (a :: t)
  | [], m, hm, a => absurd hm (by simp)
  | b :: s, 0, _, a => List.Perm.swap a b s
  | b :: s, m + 1, hm, a => by
    have hms : m < s.length := by simpa using hm
    have h1 : List.Perm ((b :: s).get ⟨m + 1, hm⟩ :: (b :: s).set (m + 1) a)
        (b :: s.get ⟨m, hms⟩ :: s.set m a) := List.Perm.swap _ _ _
    have h2 : List.Perm (b :: s.get ⟨m, hms⟩ :: s.set m a) (b :: a :: s) :=
      (cons_set_perm s m hms a).cons b
    exact (h1.trans h2).trans (List.Perm.swap a b s)

/-- Writing `l[j]` to position `i` and `l[i]` to position `j` permutes `l`. -/
lemma set_set_perm {α : Type} :
    ∀ (l : List α) (i j : ℕ) (hi : i < l.length) (hj : j < l.length),
      List.Perm ((l.set i (l.get ⟨j, hj⟩)).set j (l.get ⟨i, hi⟩)) l
  | [], i, j, hi, _ => absurd hi (by simp)
  | a :: t, 0, 0, _, _ => by simp
  | a :: t, 0, m + 1, hi, hj => by
    have hms : m < t.length := by simpa using hj
    have h1 : ((a :: t).set 0 ((a :: t).get ⟨m + 1, hj⟩)).set (m + 1)
          ((a :: t).get ⟨0, hi⟩)
        = t.get ⟨m, hms⟩ :: t.set m a := rfl
    rw [h1]
    exact cons_set_perm t m hms a
  | a :: t, n + 1, 0, hi, hj => by
    have hns : n < t.length := by simpa using hi
    have h1 : ((a :: t).set (n + 1) ((a :: t).get ⟨0, hj⟩)).set 0
          ((a :: t).get ⟨n + 1, hi⟩)
        = t.get ⟨n, hns⟩ :: t.set n a := rfl
    rw [h1]
    exact cons_set_perm t n hns a
  | a :: t, n + 1, m + 1, hi, hj => by
    have hns : n < t.length := by simpa using hi
    have hms : m < t.length := by simpa using hj
    have h1 : ((a :: t).set (n + 1) ((a :: t).get ⟨m + 1, hj⟩)).set (m + 1)
          ((a :: t).get ⟨n + 1, hi⟩)
        = a :: ((t.set n (t.get ⟨m, hms⟩)).set m (t.get ⟨n, hns⟩)) := rfl
    rw [h1]
    exact (set_set_perm t n m hns hms).cons a

/-- A `listSwap` always permutes its argument. -/
lemma listSwap_perm {α : Type} (l : List α) (i j : ℕ) :
    List.Perm (Random.listSwap l i j) l := by
  unfold Random.listSwap
  cases hi : l[i]? with
  | none => exact List.Perm.refl l
  | some a =>
    cases hj : l[j]? with
    | none => exact List.Perm.refl l
    | some b =>
      obtain ⟨hilt, hia⟩ := List.getElem?_eq_some_iff.1 hi
      obtain ⟨hjlt, hjb⟩ := List.getElem?_eq_some_iff.1 hj
      have ha : a = l.get ⟨i, hilt⟩ := hia.symm
      have hb : b = l.get ⟨j, hjlt⟩ := hjb.symm
      rw [ha, hb]
      exact set_set_perm l i j hilt hjlt

/-- The Fisher-Yates loop permutes its argument. -/
lemma shuffleLoop_perm {α : Type} (us : ℕ → ℝ) :
    ∀ (i : ℕ) (arr : List α), List.Perm (Random.shuffleLoop us i arr) arr
  | 0, arr => List.Perm.refl arr
  | i + 1, arr =>
    (shuffleLoop_perm us i _).trans
      (listSwap_perm arr (i + 1) (Random.swapIdx us (i + 1)).toNat)

/-- `shuffle` returns a permutation of its input. -/
lemma shuffle_perm {α : Type} (arr : List α) (us : ℕ → ℝ) :
    List.Perm (Random.shuffle arr us) arr :=
  shuffleLoop_perm us (arr.length - 1) arr

/-- C4: for every array and every sequence of draws in `[0,1)`, `shuffle`
returns a permutation of its input (the multiset of elements is unchanged),
and every swap index `j = ⌊u_i * (i+1)⌋` drawn at position `i ≥ 1` of the
Fisher-Yates loop satisfies `0 ≤ j ≤ i`. -/
theorem shuffle_is_permutation_with_bounded_swaps {α : Type} (arr : List α)
    (us : ℕ → ℝ) (hus : ∀ i, 0 ≤ us i ∧ us i < 1) :
    List.Perm (Random.shuffle arr us) arr ∧
    (∀ i : ℕ, 1 ≤ i → i ≤ arr.length - 1 →
      0 ≤ Random.swapIdx us i ∧ Random.swapIdx us i ≤ (i : ℤ)) := by
  refine ⟨shuffle_perm arr us, ?_⟩
  intro i _ _
  have hz : (0 : ℤ) < ((i : ℕ) : ℤ) + 1 := by omega
  have hb := floor_mul_cast_bounds (us i) (((i : ℕ) : ℤ) + 1) (hus i).1 (hus i).2 hz
  have hcast : ((((i : ℕ) : ℤ) + 1 : ℤ) : ℝ) = (((i : ℕ) : ℝ) + 1) := by push_cast; ring
  unfold Random.swapIdx
  rw [← hcast]
  exact ⟨hb.1, by omega⟩

/-- Witness for C4 at `arr = [10, 20, 30]`, constant draw `0`. -/
theorem shuffle_is_permutation_with_bounded_swaps_witness :
    (∀ i : ℕ, 0 ≤ (fun _ : ℕ => (0 : ℝ)) i ∧ (fun _ : ℕ => (0 : ℝ)) i < 1) ∧
    (List.Perm (Random.shuffle [10, 20, 30] (fun _ : ℕ => (0 : ℝ))) [10, 20, 30] ∧
    (∀ i : ℕ, 1 ≤ i → i ≤ ([10, 20, 30] : List ℕ).length - 1 →
      0 ≤ Random.swapIdx (fun _ : ℕ => (0 : ℝ)) i ∧
      Random.swapIdx (fun _ : ℕ => (0 : ℝ)) i ≤ (i : ℤ))) :=
  ⟨fun _ => ⟨le_refl 0, by norm_num⟩,
    shuffle_is_permutation_with_bounded_swaps [10, 20, 30] (fun _ => 0)
      (fun _ => ⟨le_refl 0, by norm_num⟩)⟩

namespace Random

/-- The set-based rejection loop of `Random.sample` (taken when
`k ≤ n / 2`): repeatedly draw `idx = Math.floor(u * n)`, skip indices
already selected, and push `pop[idx]` until `k` elements are collected.
`us` is the stream of `Math.random()` draws; `none` models exhausting the
supplied stream before `k` distinct indices are found (the source loop
would keep drawing). -/
noncomputable def sampleLoop {α : Type} [Inhabited α] (pop : List α) (k : ℕ) :
    List ℝ → List α → List ℕ → Option (List α)
  | [], result, _ => if k ≤ result.length then some result else none
  | u :: rest, result, selected =>
    if k ≤ result.length then some result
    else
      let idx := (⌊u * ((pop.length : ℕ) : ℝ)⌋).toNat
      if idx ∈ selected then sampleLoop pop k rest result selected
      else sampleLoop pop k rest (result ++ [pop.getD idx default]) (idx :: selected)

/-- Embedding of `Random.sample(population, k)` from `src/index.ts`:
validates `k ≤ population.length`; for `k > n / 2` copies, shuffles (using
the draw stream `us`) and takes the first `k`; otherwise runs the rejection
loop on the draw stream `rus`. `k : ℕ` makes the non-negative-integer check
hold by construction. -/
noncomputable def sample {α : Type} [Inhabited α] (pop : List α) (k : ℕ)
    (us : ℕ → ℝ) (rus : List ℝ) : Except Err (Option (List α)) :=
  if k > pop.length then .error .rangeError
  else
    if (k : ℚ) > (pop.length : ℚ) / 2 then
      .ok (some ((shuffle pop us).take k))
    else .ok (sampleLoop pop k rus [] [])

end Random

/-- Indexing the whole of `pop` in order reproduces `pop`. -/
lemma map_getD_range_eq_self {α : Type} [Inhabited α] (pop : List α) :
    (List.range pop.length).map (fun i => pop.getD i default) = pop := by
  apply List.ext_getElem
  · simp
  · intro n h1 h2
    rw [List.getElem_map, List.getElem_range, List.getD_eq_getElem pop default h2]

/-- Indexing `pop` over a duplicate-free list of in-range indices yields a
subpermutation of `pop` (a selection without replacement). -/
lemma subperm_map_getD {α : Type} [Inhabited α] (pop : List α) (idxs : List ℕ)
    (hnd : idxs.Nodup) (hbnd : ∀ i ∈ idxs, i < pop.length) :
    (idxs.map (fun i => pop.getD i default)).Subperm pop := by
  have h1 : idxs.Subperm (List.range pop.length) :=
    List.subperm_of_subset hnd (fun i hi => List.mem_range.2 (hbnd i hi))
  obtain ⟨l, hperm, hsub⟩ := h1
  refine ⟨l.map (fun i => pop.getD i default), hperm.map _, ?_⟩
  have h2 := hsub.map (fun i => pop.getD i default)
  rwa [map_getD_range_eq_self] at h2

/-- Invariant-carrying specification of the rejection loop: a successful
run returns exactly `k` elements, indexed by some duplicate-free list of
in-range indices. -/
lemma sampleLoop_spec {α : Type} [Inhabited α] (pop : List α) (k : ℕ) :
    ∀ (us : List ℝ) (result : List α) (selected : List ℕ) (res : List α),
      (∀ u ∈ us, 0 ≤ u ∧ u < 1) →
      result = selected.reverse.map (fun i => pop.getD i default) →
      selected.Nodup →
      (∀ i ∈ selected, i < pop.length) →
      result.length ≤ k → k ≤ pop.length →
      Random.sampleLoop pop k us result selected = some res →
      res.length = k ∧ ∃ idxs : List ℕ, idxs.Nodup ∧
        (∀ i ∈ idxs, i < pop.length) ∧
        res = idxs.map (fun i => pop.getD i default) := by
  intro us
  induction us with
  | nil =>
    intro result selected res hus hres hnd hbnd hlen hk heq
    simp only [Random.sampleLoop] at heq
    by_cases hk2 : k ≤ result.length
    · rw [if_pos hk2] at heq
      obtain rfl := Option.some.inj heq
      refine ⟨le_antisymm hlen hk2, selected.reverse, ?_, ?_, hres⟩
      · exact List.nodup_reverse.2 hnd
      · intro i hi
        exact hbnd i (List.mem_reverse.1 hi)
    · rw [if_neg hk2] at heq
      exact absurd heq (by simp)
  | cons u rest ih =>
    intro result selected res hus hres hnd hbnd hlen hk heq
    simp only [Random.sampleLoop] at heq
    by_cases hk2 : k ≤ result.length
    · rw [if_pos hk2] at heq
      obtain rfl := Option.some.inj heq
      refine ⟨le_antisymm hlen hk2, selected.reverse, ?_, ?_, hres⟩
      · exact List.nodup_reverse.2 hnd
      · intro i hi
        exact hbnd i (List.mem_reverse.1 hi)
    · simp only [if_neg hk2] at heq
      have hlt : result.length < k := not_le.1 hk2
      have hnpos : 0 < pop.length := by omega
      have huu := hus u (List.mem_cons_self u rest)
      have hcast : ((((pop.length : ℕ) : ℤ)) : ℝ) = ((pop.length : ℕ) : ℝ) := by
        push_cast
        rfl
      have hb := floor_mul_cast_bounds u ((pop.length : ℕ) : ℤ) huu.1 huu.2
        (by exact_mod_cast hnpos)
      rw [hcast] at hb
      set jdx : ℕ := (⌊u * ((pop.length : ℕ) : ℝ)⌋).toNat with hjdx
      have hjlt : jdx < pop.length := by omega
      have hrest : ∀ v ∈ rest, 0 ≤ v ∧ v < 1 :=
        fun v hv => hus v (List.mem_cons_of_mem u hv)
      by_cases hmem : jdx ∈ selected
      · rw [if_pos hmem] at heq
        exact ih result selected res hrest hres hnd hbnd hlen hk heq
      · rw [if_neg hmem] at heq
        apply ih (result ++ [pop.getD jdx default]) (jdx :: selected) res hrest
          ?_ ?_ ?_ ?_ hk heq
        · rw [List.reverse_cons, List.map_append, ← hres]
          simp
        · exact List.nodup_cons.2 ⟨hmem, hnd⟩
        · intro i hi
          rcases List.mem_cons.1 hi with h | h
          · rw [h]
            exact hjlt
          · exact hbnd i h
        · simp only [List.length_append, List.length_cons, List.length_nil]
          omega

/-- C3: whenever `k ≤ pop.length` and `sample` returns a result list (in the
shuffle-and-slice branch it always does; in the rejection branch, whenever
the supplied draw stream suffices), the result has exactly `k` elements,
each drawn from `pop`, forming a selection without replacement
(a subpermutation of `pop`); in particular the chosen elements are pairwise
distinct whenever `pop` has no duplicates. -/
theorem sample_k_distinct_from_pop {α : Type} [Inhabited α] (pop : List α)
    (k : ℕ) (us : ℕ → ℝ) (rus : List ℝ)
    (hk : k ≤ pop.length) (hrus : ∀ u ∈ rus, 0 ≤ u ∧ u < 1) :
    ∀ res : List α, Random.sample pop k us rus = .ok (some res) →
      res.length = k ∧ (∀ x ∈ res, x ∈ pop) ∧ res.Subperm pop ∧
      (pop.Nodup → res.Nodup) := by
  intro res heq
  simp only [Random.sample, if_neg (not_lt.2 hk)] at heq
  by_cases hbr : (k : ℚ) > (pop.length : ℚ) / 2
  · rw [if_pos hbr] at heq
    simp only [Except.ok.injEq, Option.some.injEq] at heq
    have hres : res = (Random.shuffle pop us).take k := heq.symm
    have hperm := shuffle_perm pop us
    have hlenshuffle : (Random.shuffle pop us).length = pop.length :=
      hperm.length_eq
    have hsub : res.Sublist (Random.shuffle pop us) := by
      rw [hres]
      exact List.take_sublist k _
    refine ⟨?_, ?_, ?_, ?_⟩
    · rw [hres, List.length_take, hlenshuffle]
      omega
    · intro x hx
      exact hperm.subset (hsub.subset hx)
    · exact hsub.subperm.trans hperm.subperm
    · intro hnd
      exact List.Nodup.sublist hsub (hperm.symm.nodup hnd)
  · rw [if_neg hbr] at heq
    simp only [Except.ok.injEq] at heq
    obtain ⟨hlen, idxs, hnd, hbnd, hresmap⟩ :=
      sampleLoop_spec pop k rus [] [] res hrus (by simp) (by simp)
        (by simp) (by simp) hk heq
    have hsp := subperm_map_getD pop idxs hnd hbnd
    refine ⟨hlen, ?_, ?_, ?_⟩
    · intro x hx
      apply hsp.subset
      rw [← hresmap]
      exact hx
    · rw [hresmap]
      exact hsp
    · intro hpnd
      rw [hresmap]
      refine List.Nodup.map_on ?_ hnd
      intro i hi j hj hij
      rw [List.getD_eq_getElem pop default (hbnd i hi),
        List.getD_eq_getElem pop default (hbnd j hj)] at hij
      exact (List.Nodup.getElem_inj_iff hpnd).1 hij

/-- Witness for C3 at `pop = [10, 20, 30, 40]`, `k = 1`, draw stream `[0]`. -/
theorem sample_k_distinct_from_pop_witness :
    ((1 : ℕ) ≤ ([10, 20, 30, 40] : List ℕ).length) ∧
    (∀ u ∈ ([0] : List ℝ), 0 ≤ u ∧ u < 1) ∧
    (∀ res : List ℕ,
      Random.sample [10, 20, 30, 40] 1 (fun _ => (0 : ℝ)) [0] = .ok (some res) →
      res.length = 1 ∧ (∀ x ∈ res, x ∈ ([10, 20, 30, 40] : List ℕ)) ∧
      res.Subperm [10, 20, 30, 40] ∧
      (([10, 20, 30, 40] : List ℕ).Nodup → res.Nodup)) :=
  ⟨by norm_num,
    by
      intro u hu
      rw [List.mem_singleton] at hu
      subst hu
      norm_num,
    sample_k_distinct_from_pop [10, 20, 30, 40] 1 (fun _ => (0 : ℝ)) [0]
      (by norm_num)
      (by
        intro u hu
        rw [List.mem_singleton] at hu
        subst hu
        norm_num)⟩

namespace Random

/-- `weights.reduce((a, b) => a + b, 0)`, the weight total in `choices`. -/
def weightSum (weights : List ℝ) : ℝ := weights.foldl (· + ·) 0

/-- The accumulation loop of `choices` building the cumulative array:
`acc += w / sum; cumulative.push(acc)` for each weight. -/
noncomputable def cumulativeAux (sum acc : ℝ) : List ℝ → List ℝ
  | [] => []
  | w :: ws => (acc + w / sum) :: cumulativeAux sum (acc + w / sum) ws

/-- The cumulative array of `choices` after the final write
`cumulative[cumulative.length - 1] = 1`. -/
noncomputable def buildCumulative (weights : List ℝ) : List ℝ :=
  let cumulative := cumulativeAux (weightSum weights) 0 weights
  cumulative.set (cumulative.length - 1) 1

end Random

/-- The accumulation loop produces one entry per weight. -/
lemma length_cumulativeAux (s : ℝ) :
    ∀ (ws : List ℝ) (acc : ℝ), (Random.cumulativeAux s acc ws).length = ws.length
  | [], _ => rfl
  | w :: ws, acc => by
    simp only [Random.cumulativeAux, List.length_cons]
    rw [length_cumulativeAux s ws (acc + w / s)]

/-- A left fold of addition is the starting value plus the list sum. -/
lemma foldl_add_eq_add_sum : ∀ (l : List ℝ) (a : ℝ), l.foldl (· + ·) a = a + l.sum
  | [], a => by simp
  | w :: ws, a => by
    simp only [List.foldl_cons, List.sum_cons, foldl_add_eq_add_sum ws (a + w)]
    ring

/-- Entries of the accumulation loop stay between the starting accumulator
and the accumulator plus the scaled remaining weight. -/
lemma mem_cumulativeAux_bounds (s : ℝ) (hs : 0 < s) :
    ∀ (ws : List ℝ) (acc : ℝ), (∀ w ∈ ws, 0 ≤ w) →
      ∀ x ∈ Random.cumulativeAux s acc ws, acc ≤ x ∧ x ≤ acc + ws.sum / s := by
  intro ws
  induction ws with
  | nil =>
    intro acc _ x hx
    exact absurd hx (by simp [Random.cumulativeAux])
  | cons w ws ih =>
    intro acc hw x hx
    have hw0 : 0 ≤ w := hw w (List.mem_cons_self w ws)
    have hws0 : 0 ≤ ws.sum := List.sum_nonneg (fun v hv => hw v (List.mem_cons_of_mem w hv))
    have hwd : 0 ≤ w / s := div_nonneg hw0 hs.le
    rcases List.mem_cons.1 hx with h | h
    · subst h
      constructor
      · linarith
      · rw [List.sum_cons, add_div]
        have : 0 ≤ ws.sum / s := div_nonneg hws0 hs.le
        linarith
    · have := ih (acc + w / s) (fun v hv => hw v (List.mem_cons_of_mem w hv)) x h
      rw [List.sum_cons, add_div]
      constructor
      · linarith [this.1]
      · linarith [this.2]

/-- The accumulation loop is monotonically non-decreasing, starting from the
initial accumulator. -/
lemma chain_cumulativeAux (s : ℝ) (hs : 0 < s) :
    ∀ (ws : List ℝ) (acc : ℝ), (∀ w ∈ ws, 0 ≤ w) →
      List.Chain (· ≤ ·) acc (Random.cumulativeAux s acc ws) := by
  intro ws
  induction ws with
  | nil => intro acc _; exact List.Chain.nil
  | cons w ws ih =>
    intro acc hw
    have hw0 : 0 ≤ w := hw w (List.mem_cons_self w ws)
    exact List.Chain.cons (by
        have : 0 ≤ w / s := div_nonneg hw0 hs.le
        linarith)
      (ih (acc + w / s) (fun v hv => hw v (List.mem_cons_of_mem w hv)))

/-- C7 counterexample: `weights = [0, 1]` passes validation (non-negative,
positive sum) but the cumulative array is `[0, 1]`, whose first element `0`
is not in the interval `(0, 1]`. -/
theorem choices_cumulative_Ioc_counterexample :
    (∀ w ∈ ([0, 1] : List ℝ), 0 ≤ w) ∧ 0 < Random.weightSum [0, 1] ∧
    Random.buildCumulative [0, 1] = [0, 1] ∧
    ¬ (∀ x ∈ Random.buildCumulative [0, 1], 0 < x ∧ x ≤ 1) := by
  have hbc : Random.buildCumulative [0, 1] = [0, 1] := by
    simp only [Random.buildCumulative, Random.cumulativeAux, Random.weightSum]
    norm_num
  refine ⟨?_, ?_, hbc, ?_⟩
  · intro w hw
    rcases List.mem_cons.1 hw with h | h
    · rw [h]
    · rw [List.mem_singleton.1 h]
      norm_num
  · simp only [Random.weightSum]
    norm_num
  · intro h
    have h0 := h 0 (by rw [hbc]; exact List.mem_cons_self 0 [1])
    exact lt_irrefl 0 h0.1

/-- C7 amended: for validated weights (non-empty, all non-negative, positive
total), every element of the cumulative array lies in `[0, 1]` (the lower
end is attained when a zero-weight prefix occurs, so `(0, 1]` is wrong in
general), the array is monotonically non-decreasing, and its last element
is exactly `1`. -/
theorem choices_cumulative_monotone_last_one (weights : List ℝ)
    (hne : weights ≠ []) (hw : ∀ w ∈ weights, 0 ≤ w)
    (hsum : 0 < Random.weightSum weights) :
    (∀ x ∈ Random.buildCumulative weights, 0 ≤ x ∧ x ≤ 1) ∧
    List.Chain' (· ≤ ·) (Random.buildCumulative weights) ∧
    (Random.buildCumulative weights).getLast? = some 1 := by
  have hs : Random.weightSum weights = weights.sum := by
    rw [Random.weightSum, foldl_add_eq_add_sum]
    ring
  set s : ℝ := Random.weightSum weights with hsdef
  set aux : List ℝ := Random.cumulativeAux s 0 weights with hauxdef
  have hlen : aux.length = weights.length := length_cumulativeAux s weights 0
  have hlenpos : 0 < aux.length := by
    rw [hlen]
    exact List.length_pos.2 hne
  have hbounds : ∀ x ∈ aux, 0 ≤ x ∧ x ≤ 1 := by
    intro x hx
    have hb := mem_cumulativeAux_bounds s hsum weights 0 hw x hx
    have hsne : weights.sum ≠ 0 := by
      rw [← hs]
      exact ne_of_gt hsum
    have hdiv : weights.sum / s = 1 := by
      rw [hs]
      exact div_self hsne
    constructor
    · linarith [hb.1]
    · have h2 := hb.2
      rw [hdiv] at h2
      linarith
  have hpw : List.Pairwise (· ≤ ·) aux := by
    have hchain := chain_cumulativeAux s hsum weights 0 hw
    have := List.chain_iff_pairwise.1 hchain
    exact (List.pairwise_cons.1 this).2
  have hsplit : Random.buildCumulative weights = aux.take (aux.length - 1) ++ [1] := by
    simp only [Random.buildCumulative, ← hsdef, ← hauxdef]
    rw [List.set_eq_take_cons_drop 1 (by omega)]
    have hd : aux.length - 1 + 1 = aux.length := by omega
    rw [hd, List.drop_length]
  have htakemem : ∀ x ∈ aux.take (aux.length - 1), 0 ≤ x ∧ x ≤ 1 :=
    fun x hx => hbounds x ((List.take_sublist _ _).subset hx)
  refine ⟨?_, ?_, ?_⟩
  · intro x hx
    rw [hsplit] at hx
    rcases List.mem_append.1 hx with h | h
    · exact htakemem x h
    · rw [List.mem_singleton.1 h]
      norm_num
  · rw [hsplit, List.chain'_iff_pairwise, List.pairwise_append]
    refine ⟨hpw.sublist (List.take_sublist _ _), List.pairwise_singleton _ _, ?_⟩
    intro x hx y hy
    rw [List.mem_singleton.1 hy]
    exact (htakemem x hx).2
  · rw [hsplit]
    exact List.getLast?_eq_some_iff.2 ⟨aux.take (aux.length - 1), rfl⟩

/-- Witness for C7's amended theorem at `weights = [1, 3]`. -/
theorem choices_cumulative_monotone_last_one_witness :
    (([1, 3] : List ℝ) ≠ []) ∧ (∀ w ∈ ([1, 3] : List ℝ), 0 ≤ w) ∧
    0 < Random.weightSum [1, 3] ∧
    ((∀ x ∈ Random.buildCumulative [1, 3], 0 ≤ x ∧ x ≤ 1) ∧
    List.Chain' (· ≤ ·) (Random.buildCumulative [1, 3]) ∧
    (Random.buildCumulative [1, 3]).getLast? = some 1) :=
  ⟨by simp,
    by
      intro w hw
      rcases List.mem_cons.1 hw with h | h
      · rw [h]; norm_num
      · rw [List.mem_singleton.1 h]; norm_num,
    by simp only [Random.weightSum]; norm_num,
    choices_cumulative_monotone_last_one [1, 3] (by simp)
      (by
        intro w hw
        rcases List.mem_cons.1 hw with h | h
        · rw [h]; norm_num
        · rw [List.mem_singleton.1 h]; norm_num)
      (by simp only [Random.weightSum]; norm_num)⟩

namespace Random

/-- `z0 = sqrt(-2 ln u1) * cos(2π u2)` of the Box-Muller transform. -/
noncomputable def boxMullerZ0 (u1 u2 : ℝ) : ℝ :=
  Real.sqrt (-2 * Real.log u1) * Real.cos (2 * Real.pi * u2)

/-- `z1 = sqrt(-2 ln u1) * sin(2π u2)` of the Box-Muller transform. -/
noncomputable def boxMullerZ1 (u1 u2 : ℝ) : ℝ :=
  Real.sqrt (-2 * Real.log u1) * Real.sin (2 * Real.pi * u2)

open Classical in
/-- The `do { u1 = random(); u2 = random() } while (u1 === 0)` loop of
`gauss`: the first drawn pair whose first component is nonzero. -/
noncomputable def firstNonzeroPair : List (ℝ × ℝ) → Option (ℝ × ℝ)
  | [] => none
  | p :: rest => if p.1 = 0 then firstNonzeroPair rest else some p

/-- Embedding of `Random.gauss(mu, sigma)` from `src/index.ts`. The result
pairs the returned value with the new `cachedGaussian` state; `draws` is the
stream of `(u1, u2)` pairs available to the Box-Muller loop, and `.ok none`
models exhausting that stream with every `u1 = 0` (the source loop would
keep drawing). Finiteness checks hold trivially over `ℝ`. -/
noncomputable def gauss (mu sigma : ℝ) (cachedGaussian : Option ℝ)
    (draws : List (ℝ × ℝ)) : Except Err (Option (ℝ × Option ℝ)) :=
  if sigma ≤ 0 then .error .rangeError
  else
    match cachedGaussian with
    | some c => .ok (some (c * sigma + mu, none))
    | none =>
      match firstNonzeroPair draws with
      | none => .ok none
      | some (u1, u2) =>
        .ok (some (boxMullerZ0 u1 u2 * sigma + mu, some (boxMullerZ1 u1 u2)))

/-- Embedding of `Random.clearCache()` from `src/index.ts`: the new value of
`cachedGaussian`, unconditionally `null`. -/
def clearCache (_cachedGaussian : Option ℝ) : Option ℝ := none

end Random

/-- The Box-Muller loop only ever accepts a pair with `u1 ≠ 0`. -/
lemma firstNonzeroPair_fst_ne_zero :
    ∀ (draws : List (ℝ × ℝ)) (p : ℝ × ℝ),
      Random.firstNonzeroPair draws = some p → p.1 ≠ 0 := by
  intro draws
  induction draws with
  | nil =>
    intro p hp
    exact absurd hp (by simp [Random.firstNonzeroPair])
  | cons q rest ih =>
    intro p hp
    rw [Random.firstNonzeroPair] at hp
    by_cases hq : q.1 = 0
    · rw [if_pos hq] at hp
      exact ih p hp
    · rw [if_neg hq] at hp
      obtain rfl := Option.some.inj hp
      exact hq

/-- C5: the Gaussian cache lifecycle. With `sigma > 0` (and any finite
`mu`): a non-null cache `c` is consumed, scaled by the current call's
parameters, and cleared; a null cache triggers a fresh Box-Muller pair
`(z0, z1)` from the first draw pair with `u1 ≠ 0`, returning
`z0 * sigma + mu` and caching `z1`; and `clearCache` always resets the
cache to null. -/
theorem gauss_cache_lifecycle (mu sigma : ℝ) (hsigma : 0 < sigma) :
    (∀ (c : ℝ) (draws : List (ℝ × ℝ)),
      Random.gauss mu sigma (some c) draws = .ok (some (c * sigma + mu, none))) ∧
    (∀ (draws : List (ℝ × ℝ)) (u1 u2 : ℝ),
      Random.firstNonzeroPair draws = some (u1, u2) →
      u1 ≠ 0 ∧
      Random.gauss mu sigma none draws =
        .ok (some (Random.boxMullerZ0 u1 u2 * sigma + mu,
          some (Random.boxMullerZ1 u1 u2)))) ∧
    (∀ st : Option ℝ, Random.clearCache st = none) := by
  have hns : ¬ sigma ≤ 0 := not_le.2 hsigma
  refine ⟨?_, ?_, fun _ => rfl⟩
  · intro c draws
    simp only [Random.gauss, if_neg hns]
  · intro draws u1 u2 hfind
    refine ⟨firstNonzeroPair_fst_ne_zero draws (u1, u2) hfind, ?_⟩
    simp only [Random.gauss, if_neg hns, hfind]

/-- Witness for C5 at `mu = 0`, `sigma = 1`. -/
theorem gauss_cache_lifecycle_witness :
    ((0 : ℝ) < 1) ∧
    ((∀ (c : ℝ) (draws : List (ℝ × ℝ)),
      Random.gauss 0 1 (some c) draws = .ok (some (c * 1 + 0, none))) ∧
    (∀ (draws : List (ℝ × ℝ)) (u1 u2 : ℝ),
      Random.firstNonzeroPair draws = some (u1, u2) →
      u1 ≠ 0 ∧
      Random.gauss 0 1 none draws =
        .ok (some (Random.boxMullerZ0 u1 u2 * 1 + 0,
          some (Random.boxMullerZ1 u1 u2)))) ∧
    (∀ st : Option ℝ, Random.clearCache st = none)) :=
  ⟨by norm_num, gauss_cache_lifecycle 0 1 (by norm_num)⟩
